import Mathlib

/-!
# Commit sources and filter combinators of `internal/commits`

A shallow embedding of `internal/commits/commits.go`.

* A Go `string` is its sequence of bytes, so `len` and slicing count bytes.
* A Go function that may panic and may touch state outside its arguments is a
  function from the world before the call to an outcome paired with the world
  after it. The outcome is `Except.ok` for a normal return and `Except.error`
  for a panic; nothing in the package recovers from a panic.
* The slices handled are slices of non-nil `*Commit`; commits are compared by
  value. The `Author` pointer of a commit may be nil and is an `Option`.
* Library calls whose code is not part of the package (`time.Parse`,
  `regexp.Compile`, `io.ReadAll`, `time.Now`, the repository handle of go-git)
  are parameters of the definitions that use them.
-/

namespace GoCommitlint

/-! ## Strings -/

/-- A Go string: an immutable sequence of bytes. -/
abbrev GoString := List UInt8

/-- The bytes of a string literal of the source (Go source text is UTF-8). -/
def str (s : String) : GoString := s.toUTF8.data.toList

/-- Go's `strings.Index`: the position of the first occurrence of `substr`
in `s`, `none` where Go returns `-1`. -/
def Index : GoString → GoString → Option Nat
  | [], substr => if substr = [] then some 0 else none
  | b :: s, substr =>
    if substr.isPrefixOf (b :: s) then some 0 else (Index s substr).map (· + 1)

/-- The loop of Go's `strings.genSplit` for a non-empty separator: cut at the
first occurrence of `sep`, keep what stands before it, go on after it. `n`
bounds the number of cuts. -/
def genSplit (sep : GoString) : Nat → GoString → List GoString
  | 0, s => [s]
  | n + 1, s =>
    match Index s sep with
    | none => [s]
    | some m => s.take m :: genSplit sep n (s.drop (m + sep.length))

/-- Go's `strings.Split` for a non-empty separator (the package only passes
the literals "\n" and "\n\n"). Go sizes the result for at most `len(s) + 1`
pieces, that is at most `len(s)` cuts. The branch of Go's `Split` for the
empty separator is never reached from the package and is not embedded. -/
def Split (s sep : GoString) : List GoString := genSplit sep s.length s

/-- Go's `strings.Join`. -/
def Join : List GoString → GoString → GoString
  | [], _ => []
  | [a], _ => a
  | a :: b :: rest, sep => a ++ sep ++ Join (b :: rest) sep

/-! ## Time -/

/-- An instant of `time.Time`, in nanoseconds from the Unix epoch. -/
abbrev Time := Int

/-- Go's `Time.Before`: `t` is strictly earlier than `u`. -/
def Before (t u : Time) : Bool := decide (t < u)

/-! ## Failures and effects -/

/-- A Go `error` value handed back by a library call, identified by its
message. -/
structure GoError where
  text : String
  deriving DecidableEq, Repr

/-- The value a panic carries. -/
inductive Failure where
  /-- The statement `panic(err)` on an error returned by a library call. -/
  | error (err : GoError)
  /-- Run-time panic: nil pointer dereference. -/
  | nilPointerDereference
  /-- Run-time panic: slice bounds out of range `[:high]` with length `length`. -/
  | sliceBoundsOutOfRange (high length : Nat)
  /-- Run-time panic: index out of range `[index]` with length `length`. -/
  | indexOutOfRange (index length : Nat)
  deriving DecidableEq, Repr

deriving instance DecidableEq for Except

/-- A Go call in world `σ`: its outcome (a value, or the panic that ended it)
and the world it leaves. -/
abbrev Go (σ α : Type) := σ → Except Failure α × σ

/-! ## Data model -/

/-- The source constant `shaLen`. -/
def shaLen : Nat := 7

/-- Author represents the author of a commit. -/
structure Author where
  Name : GoString
  Email : GoString
  deriving DecidableEq, Repr

/-- Commit represents a single commit. -/
structure Commit where
  Hash : GoString
  Message : GoString
  Date : Time
  NumParents : Int
  Author : Option Author
  deriving DecidableEq, Repr

/-- The source type `Commits`: a function that returns a slice of commits. -/
abbrev Commits (σ : Type) := Go σ (List Commit)

/-- The method `ID` returns the commit hash. -/
def Commit.ID (c : Commit) : GoString := c.Hash

/-- The method `ShortID` is `c.Hash[:shaLen]`; the slice expression panics when the
string is shorter than `shaLen`. -/
def Commit.ShortID (c : Commit) : Except Failure GoString :=
  if shaLen ≤ c.Hash.length then .ok (c.Hash.take shaLen)
  else .error (.sliceBoundsOutOfRange shaLen c.Hash.length)

/-- The method `Subject` is `strings.Split(c.Message, "\n")[0]`; the index expression
panics on an empty slice. -/
def Commit.Subject (c : Commit) : Except Failure GoString :=
  match Split c.Message (str "\n") with
  | [] => .error (.indexOutOfRange 0 0)
  | subject :: _ => .ok subject

/-- The method `Body` joins, with the empty separator, the parts of the message after the
first when splitting at "\n\n" gives more than one part. -/
def Commit.Body (c : Commit) : GoString :=
  match Split c.Message (str "\n\n") with
  | _ :: b :: rest => Join (b :: rest) (str "")
  | _ => str ""

/-! ## The filter combinator -/

/-- The `for ... range` loop of `filtered` over the slice returned by the
source; `f` is the slice built so far. A panic of the filter ends the loop. -/
def filteredLoop {σ : Type} (filter : Commit → Go σ Bool) :
    List Commit → List Commit → Go σ (List Commit)
  | [], f => fun w => (.ok f, w)
  | c :: rest, f => fun w =>
    match filter c w with
    | (.error p, w1) => (.error p, w1)
    | (.ok true, w1) => filteredLoop filter rest (f ++ [c]) w1
    | (.ok false, w1) => filteredLoop filter rest f w1

/-- The function `filtered` returns a `Commits` function that returns only commits that
satisfy the given filter. Invoking it invokes `in_` once, then runs the loop. -/
def filtered {σ : Type} (filter : Commit → Go σ Bool) (in_ : Commits σ) : Commits σ :=
  fun w =>
    match in_ w with
    | (.error p, w1) => (.error p, w1)
    | (.ok cs, w1) => filteredLoop filter cs [] w1

/-- The layout literal passed to `time.Parse` by `Since`. -/
def dateLayout : GoString := str "2006-01-02"

/-- The filter closure of `Since`: parses the date text on every call, panics
with the parse error, and otherwise keeps the commits not before `start`. -/
def sinceFilter {σ : Type} (Parse : GoString → GoString → Except GoError Time)
    (timeFormat : GoString) (c : Commit) : Go σ Bool :=
  fun w =>
    match Parse dateLayout timeFormat with
    | .error err => (.error (.error err), w)
    | .ok start => (.ok (!(Before c.Date start)), w)

/-- The function `Since` returns a `Commits` function that returns only commits that are
not before the given date. `Parse` is `time.Parse`. -/
def Since {σ : Type} (Parse : GoString → GoString → Except GoError Time)
    (timeFormat : GoString) (commits : Commits σ) : Commits σ :=
  filtered (sinceFilter Parse timeFormat) commits

/-- Go's `regexp.MatchString`: compiles the pattern, hands back the compile
error, and otherwise searches `s` with the compiled expression. `Compile` is
`regexp.Compile`, a compiled expression being its search function. -/
def MatchString (Compile : GoString → Except GoError (GoString → Bool))
    (pattern s : GoString) : Except GoError Bool :=
  match Compile pattern with
  | .error err => .error err
  | .ok re => .ok (re s)

/-- The loop over the patterns shared by the closures of `NotAuthoredByNames`
(`field` is `Name`) and `NotAuthoredByEmails` (`field` is `Email`). The
argument `c.Author.<field>` is evaluated before the call of `MatchString`, and
dereferences the `Author` pointer. -/
def notAuthoredLoop (Compile : GoString → Except GoError (GoString → Bool))
    (field : Author → GoString) (c : Commit) : List GoString → Except Failure Bool
  | [] => .ok true
  | pattern :: rest =>
    match c.Author with
    | none => .error .nilPointerDereference
    | some author =>
      match MatchString Compile pattern (field author) with
      | .error err => .error (.error err)
      | .ok true => .ok false
      | .ok false => notAuthoredLoop Compile field c rest

/-- The function `NotAuthoredByNames` returns a `Commits` function that returns only commits
whose author name no pattern matches. -/
def NotAuthoredByNames {σ : Type} (Compile : GoString → Except GoError (GoString → Bool))
    (patterns : List GoString) (commits : Commits σ) : Commits σ :=
  filtered (fun c w => (notAuthoredLoop Compile Author.Name c patterns, w)) commits

/-- The function `NotAuthoredByEmails` returns a `Commits` function that returns only
commits whose author email no pattern matches. -/
def NotAuthoredByEmails {σ : Type} (Compile : GoString → Except GoError (GoString → Bool))
    (patterns : List GoString) (commits : Commits σ) : Commits σ :=
  filtered (fun c w => (notAuthoredLoop Compile Author.Email c patterns, w)) commits

/-- The function `WithMaxParents` returns a `Commits` function that returns only commits
with at most `n` parents. -/
def WithMaxParents {σ : Type} (n : Int) (commits : Commits σ) : Commits σ :=
  filtered (fun c w => (.ok (decide (c.NumParents ≤ n)), w)) commits

/-- The function `FakeCommit` returns a `Commits` function that returns a single fake
commit. `reader` is `io.ReadAll` on the captured reader: all the bytes up to
the end of the stream, or the read error, and the world with the stream
consumed. `now` is `time.Now`. -/
def FakeCommit {σ : Type} (reader : σ → Except GoError GoString × σ) (now : σ → Time) :
    Commits σ :=
  fun w =>
    match reader w with
    | (.error err, w1) => (.error (.error err), w1)
    | (.ok b, w1) =>
      (.ok [{ Hash := str "fakesha", Message := b, Date := now w1,
              NumParents := 0, Author := none }], w1)

/-! ## Library stand-ins used to instantiate the statements -/

/-- The byte is an ASCII decimal digit. -/
def isDigit (b : UInt8) : Bool := decide (48 ≤ b.toNat ∧ b.toNat ≤ 57)

/-- The value of an ASCII decimal digit. -/
def digitVal (b : UInt8) : Nat := b.toNat - 48

/-- Leap years of the proleptic Gregorian calendar. -/
def isLeap (year : Nat) : Bool := year % 4 == 0 && (year % 100 != 0 || year % 400 == 0)

/-- Number of days of a month of a year. -/
def daysIn (month year : Nat) : Nat :=
  if month = 2 then (if isLeap year then 29 else 28)
  else if month = 4 ∨ month = 6 ∨ month = 9 ∨ month = 11 then 30 else 31

/-- Days from 1970-01-01 to the given civil date. -/
def daysFromCivil (year month day : Nat) : Int :=
  let y : Int := if month ≤ 2 then (year : Int) - 1 else year
  let era : Int := y / 400
  let yoe : Int := y - era * 400
  let mp : Int := if month ≤ 2 then (month : Int) + 9 else (month : Int) - 3
  let doy : Int := (153 * mp + 2) / 5 + day - 1
  let doe : Int := yoe * 365 + yoe / 4 - yoe / 100 + doy
  era * 146097 + doe - 719468

/-- Modelled from the spec: the date parser `time.Parse` of Go's library, for
the layout YYYY-MM-DD the package passes (literal format, four-digit year,
two-digit month and day, a real calendar date, nothing after it). The result
is midnight UTC of that date. -/
def timeParse (layout value : GoString) : Except GoError Time :=
  if layout ≠ dateLayout then .error ⟨"layout outside the model"⟩
  else
    match value with
    | [y1, y2, y3, y4, s1, m1, m2, s2, d1, d2] =>
      let year := 1000 * digitVal y1 + 100 * digitVal y2 + 10 * digitVal y3 + digitVal y4
      let month := 10 * digitVal m1 + digitVal m2
      let day := 10 * digitVal d1 + digitVal d2
      if [y1, y2, y3, y4, m1, m2, d1, d2].all isDigit && s1 == 45 && s2 == 45
          && decide (1 ≤ month ∧ month ≤ 12) && decide (1 ≤ day ∧ day ≤ daysIn month year) then
        .ok (daysFromCivil year month day * 86400 * 1000000000)
      else .error ⟨"parsing time: cannot parse value as 2006-01-02"⟩
    | _ => .error ⟨"parsing time: cannot parse value as 2006-01-02"⟩

/-- The byte stands for itself in a regular expression: an ASCII letter or
digit, a blank, or one of `@`, `-`, `_`. -/
def isLiteralByte (b : UInt8) : Bool :=
  isDigit b || decide (65 ≤ b.toNat ∧ b.toNat ≤ 90) || decide (97 ≤ b.toNat ∧ b.toNat ≤ 122)
    || b == 32 || b == 64 || b == 45 || b == 95

/-- A stand-in for `regexp.Compile` on a fragment of the pattern language: a
pattern free of metacharacters compiles to the search for itself as a
substring, every other pattern is rejected. -/
def literalCompile (pattern : GoString) : Except GoError (GoString → Bool) :=
  if pattern.all isLiteralByte then .ok (fun s => (Index s pattern).isSome)
  else .error ⟨"error parsing regexp"⟩

/-- A world holding one byte stream (as a `strings.Reader` or a file would be)
and a clock. -/
structure StreamWorld where
  /-- The bytes of the stream not read yet. -/
  unread : GoString
  /-- The error met when reading past them, `none` when the stream just ends. -/
  fault : Option GoError
  /-- The wall-clock time. -/
  clock : Time
  deriving DecidableEq, Repr

/-- Go's `io.ReadAll` on the stream of the world: reads up to the end (or to
the fault) and leaves the stream consumed. -/
def StreamWorld.ReadAll (w : StreamWorld) : Except GoError GoString × StreamWorld :=
  match w.fault with
  | some err => (.error err, { w with unread := [] })
  | none => (.ok w.unread, { w with unread := [] })

/-- Go's `time.Now` in the world. -/
def StreamWorld.Now (w : StreamWorld) : Time := w.clock

/-- A source that returns the given commits and touches nothing. -/
def fixedSource {σ : Type} (cs : List Commit) : Commits σ := fun w => (.ok cs, w)

/-- A commit with the given date and nothing else set, as the tests build. -/
def commitDated (t : Time) : Commit :=
  { Hash := [], Message := [], Date := t, NumParents := 0, Author := none }

/-- A commit with the given parent count and nothing else set. -/
def commitWithParents (n : Int) : Commit :=
  { Hash := [], Message := [], Date := 0, NumParents := n, Author := none }

/-- A commit with the given author and nothing else set. -/
def commitBy (name email : String) : Commit :=
  { Hash := [], Message := [], Date := 0, NumParents := 0,
    Author := some { Name := str name, Email := str email } }

/-- Some pattern of the list matches `s`: `MatchString` answers true on it. -/
def anyMatch (Compile : GoString → Except GoError (GoString → Bool))
    (patterns : List GoString) (s : GoString) : Bool :=
  patterns.any (fun pattern => decide (MatchString Compile pattern s = .ok true))

/-- The commits a pattern list lets through, by the chosen author field: those
with an author no pattern matches (and those without an author). -/
def survives (Compile : GoString → Except GoError (GoString → Bool))
    (field : Author → GoString) (patterns : List GoString) (c : Commit) : Bool :=
  match c.Author with
  | some author => !(anyMatch Compile patterns (field author))
  | none => true

/-! ## The base source -/

/-- An author or committer line of a go-git commit (`object.Signature`). -/
structure Signature where
  Name : GoString
  Email : GoString
  When : Time
  deriving DecidableEq, Repr

/-- A commit record of go-git (`object.Commit`), by the fields `In` reads;
`Hash` holds the text that `c.Hash.String()` gives. -/
structure ObjectCommit where
  Hash : GoString
  Message : GoString
  Author : Signature
  ParentHashes : List GoString
  deriving DecidableEq, Repr

/-- A commit iterator of go-git, by what a traversal of it delivers: the
records in order, and the error that ends the traversal, `none` when it ends
with the last record. -/
structure CommitIter where
  records : List ObjectCommit
  fault : Option GoError
  deriving DecidableEq, Repr

/-- A reference of go-git, by the hash `ref.Hash()` gives. -/
structure Reference where
  Hash : GoString
  deriving DecidableEq, Repr

/-- A repository handle of go-git, by the two calls `In` makes on it: `Head`,
and `Log` with the option `From`. -/
structure Repository (σ : Type) where
  Head : σ → Except GoError Reference × σ
  Log : GoString → σ → Except GoError CommitIter × σ

/-- The method `ForEach` of a go-git commit iterator: calls `cb` on every
record in order, stops at the first error `cb` returns and returns it, returns
the error of the traversal if there is one, and `none` (nil) otherwise. `acc`
is the variable the callback writes to. -/
def forEachLoop {α : Type} (cb : ObjectCommit → α → Option GoError × α)
    (fault : Option GoError) : List ObjectCommit → α → Option GoError × α
  | [], acc => (fault, acc)
  | c :: rest, acc =>
    match cb c acc with
    | (some err, acc1) => (some err, acc1)
    | (none, acc1) => forEachLoop cb fault rest acc1

/-- The function `In`: opens the repository, resolves its head, starts the
log from the head and appends one commit per record the traversal visits.
Each of the four steps panics with the error it gets. -/
def In {σ : Type} (repository : σ → Except GoError (Repository σ) × σ) : Commits σ :=
  fun w =>
    match repository w with
    | (.error err, w1) => (.error (.error err), w1)
    | (.ok r, w1) =>
      match r.Head w1 with
      | (.error err, w2) => (.error (.error err), w2)
      | (.ok ref, w2) =>
        match r.Log ref.Hash w2 with
        | (.error err, w3) => (.error (.error err), w3)
        | (.ok iter, w3) =>
          match forEachLoop
              (fun c commits =>
                (none, commits ++ [{ Hash := c.Hash, Message := c.Message,
                                     Date := c.Author.When,
                                     NumParents := (c.ParentHashes.length : Int),
                                     Author := some { Name := c.Author.Name,
                                                      Email := c.Author.Email } }]))
              iter.fault iter.records [] with
          | (some err, _) => (.error (.error err), w3)
          | (none, commits) => (.ok commits, w3)

/-- A repository whose head is `head` and whose log from any hash delivers the
given records; opening it, and both calls, succeed and touch nothing. -/
def fixedRepository {σ : Type} (head : GoString) (records : List ObjectCommit) :
    σ → Except GoError (Repository σ) × σ :=
  fun w =>
    (.ok { Head := fun v => (.ok { Hash := head }, v),
           Log := fun _ v => (.ok { records := records, fault := none }, v) }, w)

/-- A record with the given hash, message, time and parents, by John Doe as in
the tests of the package. -/
def recordOf (hash message : String) (time : Time) (parents : List String) : ObjectCommit :=
  { Hash := str hash, Message := str message,
    Author := { Name := str "John Doe", Email := str "john.doe@example.com", When := time },
    ParentHashes := parents.map str }

/-! ## Cutting a text, in the words of the specification -/

/-- Follows the wording of the specification, for comparison with `Split`:
the pieces obtained by cutting a text at every occurrence of the separator,
scanning left to right, occurrences not overlapping. `skip` counts the bytes
of an occurrence just found that are still to be passed over. Scanning a byte
where no occurrence starts adds the byte to the piece being read. -/
def cutAtEvery (sep : GoString) : Nat → GoString → List GoString
  | _, [] => [[]]
  | skip + 1, _ :: t => cutAtEvery sep skip t
  | 0, b :: t =>
    if sep.isPrefixOf (b :: t) then [] :: cutAtEvery sep (sep.length - 1) t
    else
      match cutAtEvery sep 0 t with
      | [] => [[b]]
      | piece :: pieces => (b :: piece) :: pieces

/-! ## Strings: the bound on the cuts of `Split` is never reached early -/

/-- An occurrence found by `Index` lies inside the string. -/
theorem Index_add_length_le (sep : GoString) (s : GoString) (m : Nat)
    (h : Index s sep = some m) : m + sep.length ≤ s.length := by
  induction s generalizing m with
  | nil =>
    by_cases hs : sep = []
    · simp [Index, hs] at h
      simp [hs, ← h]
    · simp [Index, hs] at h
  | cons b s ih =>
    by_cases hp : sep.isPrefixOf (b :: s) = true
    · simp [Index, hp] at h
      have hlen := (List.isPrefixOf_iff_prefix.mp hp).length_le
      omega
    · simp only [Index, hp] at h
      cases hi : Index s sep with
      | none => simp [hi] at h
      | some k =>
        simp [hi] at h
        have := ih k hi
        simp only [List.length_cons]
        omega

/-- For a non-empty separator, any two bounds of at least the length of the
string give the same pieces: the loop of `genSplit` stops because no occurrence
is left, not because the bound is reached. -/
theorem genSplit_bound_irrelevant (sep : GoString) (hsep : sep ≠ []) (n m : Nat)
    (s : GoString) (hn : s.length ≤ n) (hm : s.length ≤ m) :
    genSplit sep n s = genSplit sep m s := by
  have hempty : ∀ k, genSplit sep k [] = [[]] := by
    intro k
    cases k with
    | zero => rfl
    | succ k => simp [genSplit, Index, hsep]
  induction n generalizing m s with
  | zero =>
    have hs : s = [] := List.length_eq_zero.mp (Nat.le_zero.mp hn)
    subst hs
    rw [hempty, hempty]
  | succ n ih =>
    cases m with
    | zero =>
      have hs : s = [] := List.length_eq_zero.mp (Nat.le_zero.mp hm)
      subst hs
      rw [hempty, hempty]
    | succ m =>
      cases hi : Index s sep with
      | none => simp [genSplit, hi]
      | some k =>
        have hk := Index_add_length_le sep s k hi
        have hpos : 0 < sep.length := List.length_pos.mpr hsep
        have hd : (s.drop (k + sep.length)).length ≤ n := by
          simp only [List.length_drop]
          omega
        have hd1 : (s.drop (k + sep.length)).length ≤ m := by
          simp only [List.length_drop]
          omega
        simp [genSplit, hi, ih m _ hd hd1]

/-! ## The filter combinator: results -/

/-- With a filter that neither panics nor touches the world, the loop appends
to `f` the elements that satisfy it, in order. -/
theorem filteredLoop_pure {σ : Type} (P : Commit → Bool) (xs f : List Commit) (w : σ) :
    filteredLoop (fun c v => (.ok (P c), v)) xs f w = (.ok (f ++ xs.filter P), w) := by
  induction xs generalizing f with
  | nil => simp [filteredLoop]
  | cons c rest ih =>
    cases h : P c <;> simp [filteredLoop, h, ih]

/-- The loop with a filter that leaves the world alone and agrees with `P` on
every element of the slice. -/
theorem filteredLoop_agrees {σ : Type} (pred : Commit → Except Failure Bool) (P : Commit → Bool)
    (xs f : List Commit) (w : σ) (h : ∀ c ∈ xs, pred c = .ok (P c)) :
    filteredLoop (fun c v => (pred c, v)) xs f w = (.ok (f ++ xs.filter P), w) := by
  induction xs generalizing f with
  | nil => simp [filteredLoop]
  | cons c rest ih =>
    have hc : pred c = .ok (P c) := h c (List.mem_cons_self _ _)
    have hr : ∀ x ∈ rest, pred x = .ok (P x) := fun x hx => h x (List.mem_cons_of_mem _ hx)
    cases hP : P c <;> simp [filteredLoop, hc, hP, ih _ hr]

/-- The loop with a filter that leaves the world alone, and on every element
either drops it or panics with `p`, panics with `p` as soon as one element
makes it panic. -/
theorem filteredLoop_panics {σ : Type} (pred : Commit → Except Failure Bool) (p : Failure)
    (xs f : List Commit) (w : σ)
    (h : ∀ c ∈ xs, pred c = .ok false ∨ pred c = .error p)
    (hex : ∃ c ∈ xs, pred c = .error p) :
    filteredLoop (fun c v => (pred c, v)) xs f w = (.error p, w) := by
  induction xs generalizing f with
  | nil => simp at hex
  | cons c rest ih =>
    rcases h c (List.mem_cons_self _ _) with hc | hc
    · have hr : ∀ x ∈ rest, pred x = .ok false ∨ pred x = .error p :=
        fun x hx => h x (List.mem_cons_of_mem _ hx)
      have hex1 : ∃ x ∈ rest, pred x = .error p := by
        obtain ⟨x, hx, hxe⟩ := hex
        rcases List.mem_cons.mp hx with rfl | hx1
        · rw [hc] at hxe; cases hxe
        · exact ⟨x, hx1, hxe⟩
      simp [filteredLoop, hc, ih _ hr hex1]
    · simp [filteredLoop, hc]

/-- C1: for every predicate P and every source S whose invocation succeeds,
the invocation of filtered(P, S) returns exactly the elements of the result of
S that satisfy P, in their original order: a subsequence of it, whose elements
all satisfy P, with no element satisfying P left out. -/
theorem filtered_returns_exactly_the_matching {σ : Type} (P : Commit → Bool) (S : Commits σ)
    (w w1 : σ) (xs : List Commit) (hS : S w = (.ok xs, w1)) :
    ∃ ys, filtered (fun c v => (.ok (P c), v)) S w = (.ok ys, w1) ∧ ys = xs.filter P ∧
      ys.Sublist xs ∧ (∀ c ∈ ys, P c = true) ∧ (∀ c ∈ xs, P c = true → c ∈ ys) ∧
      (∀ c, P c = true → ys.count c = xs.count c) := by
  refine ⟨xs.filter P, ?_, rfl, List.filter_sublist xs, ?_, ?_, ?_⟩
  · simp [filtered, hS, filteredLoop_pure]
  · intro c hc
    exact (List.mem_filter.mp hc).2
  · intro c hc hP
    exact List.mem_filter.mpr ⟨hc, hP⟩
  · intro c hP
    rw [List.count_filter hP]

/-- Witness of C1: keeping the commits with at most two parents among commits
with 1, 2, 3, 2 parents. -/
theorem filtered_returns_exactly_the_matching_witness :
    ∃ ys, filtered (fun c v => (.ok (decide (c.NumParents ≤ 2)), v))
        (fixedSource [commitWithParents 1, commitWithParents 2, commitWithParents 3,
          commitWithParents 2]) () = (.ok ys, ()) ∧
      ys = [commitWithParents 1, commitWithParents 2, commitWithParents 2] := by
  obtain ⟨ys, h1, h2, _⟩ := filtered_returns_exactly_the_matching
    (fun c => decide (c.NumParents ≤ 2))
    (fixedSource [commitWithParents 1, commitWithParents 2, commitWithParents 3,
      commitWithParents 2]) () () _ rfl
  refine ⟨ys, h1, h2.trans ?_⟩
  decide

/-- C2: for every filter (also one with effects) and every source S whose
invocation panics, the invocation of filtered(filter, S), and so of Since,
NotAuthoredByNames, NotAuthoredByEmails and WithMaxParents around S, panics
with the same value and leaves the world exactly as S left it: there is no
partial result and no effect of the filter, which is never evaluated. -/
theorem filtered_propagates_source_failure {σ : Type} (filter : Commit → Go σ Bool)
    (Parse : GoString → GoString → Except GoError Time)
    (Compile : GoString → Except GoError (GoString → Bool))
    (timeFormat : GoString) (patterns : List GoString) (n : Int)
    (S : Commits σ) (w w1 : σ) (p : Failure) (hS : S w = (.error p, w1)) :
    filtered filter S w = (.error p, w1) ∧
      Since Parse timeFormat S w = (.error p, w1) ∧
      NotAuthoredByNames Compile patterns S w = (.error p, w1) ∧
      NotAuthoredByEmails Compile patterns S w = (.error p, w1) ∧
      WithMaxParents n S w = (.error p, w1) := by
  simp [Since, NotAuthoredByNames, NotAuthoredByEmails, WithMaxParents, filtered, hS]

/-- Witness of C2: a source that panics on opening the repository, in a world
that counts the evaluations of the filter; the count stays 0. -/
theorem filtered_propagates_source_failure_witness :
    filtered (fun _ v => (.ok true, v + 1))
        (fun v => (.error (.error ⟨"repository does not exist"⟩), v)) (0 : Nat)
      = (.error (.error ⟨"repository does not exist"⟩), 0) :=
  (filtered_propagates_source_failure (fun _ v => (.ok true, v + 1)) timeParse literalCompile
    (str "2020-01-02") [str "bot"] 2
    (fun v => (.error (.error ⟨"repository does not exist"⟩), v)) 0 0 _ rfl).1

/-! ## The specialised filters -/

/-- C3: for every date text that parses and every source that succeeds, the
invocation of Since returns exactly the commits of the source whose Date is at
or after the parsed instant, in their original order; with the date parser of
the layout YYYY-MM-DD the instant is midnight of the date, and on commits
dated 2020-01-01, 2020-01-02, 2020-01-03 the date text 2020-01-02 keeps
exactly the second and the third. -/
theorem Since_keeps_commits_from_the_date {σ : Type}
    (Parse : GoString → GoString → Except GoError Time) (d : GoString) (start : Time)
    (S : Commits σ) (w w1 : σ) (xs : List Commit)
    (hp : Parse dateLayout d = .ok start) (hS : S w = (.ok xs, w1)) :
    Since Parse d S w = (.ok (xs.filter (fun c => decide (start ≤ c.Date))), w1) ∧
      timeParse dateLayout (str "2020-01-02") = .ok (18263 * 86400 * 1000000000) ∧
      Since timeParse (str "2020-01-02")
          (fixedSource [commitDated (18262 * 86400 * 1000000000),
            commitDated (18263 * 86400 * 1000000000),
            commitDated (18264 * 86400 * 1000000000)]) w
        = (.ok [commitDated (18263 * 86400 * 1000000000),
            commitDated (18264 * 86400 * 1000000000)], w) := by
  have key : ∀ (P : GoString → GoString → Except GoError Time) (t : GoString) (s0 : Time)
      (ys : List Commit) (v : σ), P dateLayout t = .ok s0 →
      filteredLoop (sinceFilter P t) ys [] v
        = (.ok (ys.filter (fun c => decide (s0 ≤ c.Date))), v) := by
    intro P t s0 ys v hP
    have hf : (sinceFilter P t : Commit → Go σ Bool)
        = fun c u => (.ok (decide (s0 ≤ c.Date)), u) := by
      funext c u
      by_cases h : c.Date < s0
      · simp [sinceFilter, hP, Before, h, not_le.mpr h]
      · simp [sinceFilter, hP, Before, h, not_lt.mp h]
    rw [hf, filteredLoop_pure]
    simp
  refine ⟨?_, by decide, ?_⟩
  · simp [Since, filtered, hS, key Parse d start xs w1 hp]
  · have hparse : timeParse dateLayout (str "2020-01-02") = .ok (18263 * 86400 * 1000000000) := by
      decide
    have hkeep : List.filter (fun c => decide ((18263 * 86400 * 1000000000 : Int) ≤ c.Date))
        [commitDated (18262 * 86400 * 1000000000), commitDated (18263 * 86400 * 1000000000),
          commitDated (18264 * 86400 * 1000000000)]
        = [commitDated (18263 * 86400 * 1000000000),
            commitDated (18264 * 86400 * 1000000000)] := by
      decide
    simp only [Since, filtered, fixedSource, key timeParse _ _ _ w hparse, hkeep]

/-- Witness of C3: the three commits of the test, dated by the date parser. -/
theorem Since_keeps_commits_from_the_date_witness :
    timeParse dateLayout (str "2020-01-01") = .ok 1577836800000000000 ∧
      timeParse dateLayout (str "2020-01-02") = .ok 1577923200000000000 ∧
      timeParse dateLayout (str "2020-01-03") = .ok 1578009600000000000 ∧
      Since timeParse (str "2020-01-02")
          (fixedSource [commitDated 1577836800000000000, commitDated 1577923200000000000,
            commitDated 1578009600000000000]) ()
        = (.ok [commitDated 1577923200000000000, commitDated 1578009600000000000], ()) :=
  ⟨by decide, by decide, by decide,
    (Since_keeps_commits_from_the_date timeParse (str "2020-01-02") 1577923200000000000
      (fixedSource [commitDated 1577836800000000000, commitDated 1577923200000000000,
        commitDated 1578009600000000000]) () () _ (by decide) rfl).1.trans (by decide)⟩

/-- C4: for every integer n and every source that succeeds, the invocation of
WithMaxParents does not panic and returns exactly the commits of the source
with NumParents at most n, in their original order; parent counts 1, 2, 3 with
n = 2 give the commits with counts 1, 2. -/
theorem WithMaxParents_keeps_commits_up_to_n {σ : Type} (n : Int) (S : Commits σ)
    (w w1 : σ) (xs : List Commit) (hS : S w = (.ok xs, w1)) :
    WithMaxParents n S w = (.ok (xs.filter (fun c => decide (c.NumParents ≤ n))), w1) ∧
      WithMaxParents 2
          (fixedSource [commitWithParents 1, commitWithParents 2, commitWithParents 3]) w
        = (.ok [commitWithParents 1, commitWithParents 2], w) := by
  constructor
  · simp [WithMaxParents, filtered, hS, filteredLoop_pure]
  · have hkeep : List.filter (fun c => decide (c.NumParents ≤ 2))
        [commitWithParents 1, commitWithParents 2, commitWithParents 3]
        = [commitWithParents 1, commitWithParents 2] := by
      decide
    simp only [WithMaxParents, filtered, fixedSource, filteredLoop_pure, hkeep, List.nil_append]

/-- Witness of C4: the test of the package, with a negative ceiling as well. -/
theorem WithMaxParents_keeps_commits_up_to_n_witness :
    WithMaxParents 2
        (fixedSource [commitWithParents 1, commitWithParents 2, commitWithParents 3]) ()
      = (.ok [commitWithParents 1, commitWithParents 2], ()) ∧
    WithMaxParents (-1)
        (fixedSource [commitWithParents 1, commitWithParents 2, commitWithParents 3]) ()
      = (.ok [], ()) :=
  ⟨(WithMaxParents_keeps_commits_up_to_n 2
      (fixedSource [commitWithParents 1, commitWithParents 2, commitWithParents 3])
      () () _ rfl).1.trans (by decide),
   (WithMaxParents_keeps_commits_up_to_n (-1)
      (fixedSource [commitWithParents 1, commitWithParents 2, commitWithParents 3])
      () () _ rfl).1.trans (by decide)⟩

/-- When every pattern compiles, `MatchString` succeeds. -/
theorem MatchString_of_compiles (Compile : GoString → Except GoError (GoString → Bool))
    (pattern s : GoString) (re : GoString → Bool) (h : Compile pattern = .ok re) :
    MatchString Compile pattern s = .ok (re s) := by
  simp [MatchString, h]

/-- The loop over patterns that all compile, on a commit with an author:
false as soon as a pattern matches the field, true otherwise. -/
theorem notAuthoredLoop_of_valid (Compile : GoString → Except GoError (GoString → Bool))
    (field : Author → GoString) (c : Commit) (author : Author) (patterns : List GoString)
    (hvalid : ∀ pattern ∈ patterns, ∃ re, Compile pattern = .ok re)
    (hauthor : c.Author = some author) :
    notAuthoredLoop Compile field c patterns
      = .ok (!(anyMatch Compile patterns (field author))) := by
  induction patterns with
  | nil => simp [notAuthoredLoop, anyMatch]
  | cons pattern rest ih =>
    obtain ⟨re, hre⟩ := hvalid pattern (List.mem_cons_self _ _)
    have hr : ∀ q ∈ rest, ∃ re, Compile q = .ok re :=
      fun q hq => hvalid q (List.mem_cons_of_mem _ hq)
    have hm := MatchString_of_compiles Compile pattern (field author) re hre
    have ih1 := ih hr
    simp only [anyMatch] at ih1
    cases hb : re (field author) <;>
      simp [notAuthoredLoop, hauthor, hm, hb, anyMatch, ih1]

/-- The loop over patterns of which the first that does not compile is `bad`,
on a commit with an author: false when a pattern before `bad` matches the
field, otherwise the panic on the compile error of `bad`. -/
theorem notAuthoredLoop_of_invalid (Compile : GoString → Except GoError (GoString → Bool))
    (field : Author → GoString) (c : Commit) (author : Author)
    (good : List GoString) (bad : GoString) (rest : List GoString) (err : GoError)
    (hgood : ∀ pattern ∈ good, ∃ re, Compile pattern = .ok re)
    (hbad : Compile bad = .error err)
    (hauthor : c.Author = some author) :
    notAuthoredLoop Compile field c (good ++ bad :: rest)
      = if anyMatch Compile good (field author) then .ok false else .error (.error err) := by
  induction good with
  | nil => simp [notAuthoredLoop, anyMatch, hauthor, MatchString, hbad]
  | cons pattern more ih =>
    obtain ⟨re, hre⟩ := hgood pattern (List.mem_cons_self _ _)
    have hr : ∀ q ∈ more, ∃ re, Compile q = .ok re :=
      fun q hq => hgood q (List.mem_cons_of_mem _ hq)
    have hm := MatchString_of_compiles Compile pattern (field author) re hre
    have ih1 := ih hr
    simp only [anyMatch] at ih1
    cases hb : re (field author) <;>
      simp [notAuthoredLoop, hauthor, hm, hb, anyMatch, ih1]

/-- The exclusion filter by any author field, over patterns that all compile
and a source that succeeds with commits that all have an author. -/
theorem notAuthored_of_valid {σ : Type} (Compile : GoString → Except GoError (GoString → Bool))
    (field : Author → GoString) (patterns : List GoString) (S : Commits σ) (w w1 : σ)
    (xs : List Commit)
    (hvalid : ∀ pattern ∈ patterns, ∃ re, Compile pattern = .ok re)
    (hS : S w = (.ok xs, w1)) (hauthor : ∀ c ∈ xs, c.Author ≠ none) :
    filtered (fun c v => (notAuthoredLoop Compile field c patterns, v)) S w
      = (.ok (xs.filter (survives Compile field patterns)), w1) := by
  have hagree : ∀ c ∈ xs, notAuthoredLoop Compile field c patterns
      = .ok (survives Compile field patterns c) := by
    intro c hc
    cases ha : c.Author with
    | none => exact absurd ha (hauthor c hc)
    | some author =>
      rw [notAuthoredLoop_of_valid Compile field c author patterns hvalid ha]
      simp [survives, ha]
  simp [filtered, hS, filteredLoop_agrees _ _ xs [] w1 hagree]

/-- C5: for every list of patterns that all compile and every source that
succeeds with commits that all have an author, the invocation of
NotAuthoredByNames returns the commits of the source in their original order
without those whose author name some pattern matches: a commit of the source
is in the result if and only if no pattern matches its author name. -/
theorem NotAuthoredByNames_drops_exactly_the_matched {σ : Type}
    (Compile : GoString → Except GoError (GoString → Bool)) (patterns : List GoString)
    (S : Commits σ) (w w1 : σ) (xs : List Commit)
    (hvalid : ∀ pattern ∈ patterns, ∃ re, Compile pattern = .ok re)
    (hS : S w = (.ok xs, w1)) (hauthor : ∀ c ∈ xs, c.Author ≠ none) :
    ∃ ys, NotAuthoredByNames Compile patterns S w = (.ok ys, w1) ∧
      ys = xs.filter (survives Compile Author.Name patterns) ∧ ys.Sublist xs ∧
      ∀ c ∈ xs, ∀ author, c.Author = some author →
        (c ∈ ys ↔ ∀ pattern ∈ patterns,
          MatchString Compile pattern author.Name = .ok false) := by
  refine ⟨xs.filter (survives Compile Author.Name patterns), ?_, rfl,
    List.filter_sublist xs, ?_⟩
  · exact notAuthored_of_valid Compile Author.Name patterns S w w1 xs hvalid hS hauthor
  · intro c hc author ha
    rw [List.mem_filter]
    simp only [hc, true_and, survives, ha, anyMatch, Bool.not_eq_true', List.any_eq_false,
      decide_eq_true_eq]
    constructor
    · intro h pattern hp
      obtain ⟨re, hre⟩ := hvalid pattern hp
      have hm := MatchString_of_compiles Compile pattern author.Name re hre
      have hne := h pattern hp
      rw [hm] at hne ⊢
      cases hb : re author.Name
      · rfl
      · rw [hb] at hne; exact absurd rfl hne
    · intro h pattern hp hm
      rw [h pattern hp] at hm
      cases hm

/-- Witness of C5: the pattern `bot` drops the two commits whose author name
contains it, at the front and in the middle, and keeps the others in order. -/
theorem NotAuthoredByNames_drops_exactly_the_matched_witness :
    ∃ ys, NotAuthoredByNames literalCompile [str "bot"]
        (fixedSource [commitBy "robot" "r@example.com", commitBy "alice" "a@example.com",
          commitBy "dependabot" "d@example.com", commitBy "bob" "bot@example.com"]) ()
        = (.ok ys, ()) ∧
      ys = [commitBy "alice" "a@example.com", commitBy "bob" "bot@example.com"] := by
  obtain ⟨ys, h1, h2, _⟩ := NotAuthoredByNames_drops_exactly_the_matched literalCompile
    [str "bot"]
    (fixedSource [commitBy "robot" "r@example.com", commitBy "alice" "a@example.com",
      commitBy "dependabot" "d@example.com", commitBy "bob" "bot@example.com"]) () ()
    _ (by
      intro pattern hp
      rw [List.mem_singleton] at hp
      subst hp
      unfold literalCompile
      exact ⟨_, if_pos (by decide)⟩) rfl (by decide)
  refine ⟨ys, h1, h2.trans ?_⟩
  decide

/-- Counterexample to C6 as stated: the date text `yesterday` does not parse,
yet on a source that succeeds with no commit the invocation of Since returns
the empty slice and does not panic. -/
theorem Since_unparsable_date_on_empty_source_counterexample :
    timeParse dateLayout (str "yesterday")
        = .error ⟨"parsing time: cannot parse value as 2006-01-02"⟩ ∧
      Since timeParse (str "yesterday") (fixedSource []) () = (.ok [], ()) := by
  constructor
  · decide
  · rfl

/-- C6, amended: for every date text that does not parse and every source that
succeeds, the invocation of Since panics with the error of the date parser
when the source returns at least one commit, and returns the empty slice
without a panic when the source returns none. -/
theorem Since_unparsable_date {σ : Type}
    (Parse : GoString → GoString → Except GoError Time) (d : GoString) (err : GoError)
    (S : Commits σ) (w w1 : σ) (xs : List Commit)
    (hp : Parse dateLayout d = .error err) (hS : S w = (.ok xs, w1)) :
    (xs ≠ [] → Since Parse d S w = (.error (.error err), w1)) ∧
      (xs = [] → Since Parse d S w = (.ok [], w1)) := by
  constructor
  · intro hne
    cases xs with
    | nil => exact absurd rfl hne
    | cons c rest => simp [Since, filtered, hS, filteredLoop, sinceFilter, hp]
  · intro he
    subst he
    simp [Since, filtered, hS, filteredLoop]

/-- Witness of C6, amended: the same date text on a source with one commit. -/
theorem Since_unparsable_date_witness :
    Since timeParse (str "yesterday") (fixedSource [commitDated 0]) ()
      = (.error (.error ⟨"parsing time: cannot parse value as 2006-01-02"⟩), ()) :=
  (Since_unparsable_date timeParse (str "yesterday") _ (fixedSource [commitDated 0]) () ()
    [commitDated 0] (by decide) rfl).1 (by decide)

/-- Counterexample to C7 as stated: the pattern `(` does not compile, yet the
invocation does not panic on a source with no commit, nor when the bad
pattern stands after a pattern that matches every commit of the source (by
name, and by email). -/
theorem NotAuthoredBy_bad_pattern_counterexample :
    (∃ err, literalCompile (str "(") = .error err) ∧
      NotAuthoredByNames literalCompile [str "("] (fixedSource []) () = (.ok [], ()) ∧
      NotAuthoredByNames literalCompile [str "alice", str "("]
          (fixedSource [commitBy "alice" "a@example.com"]) () = (.ok [], ()) ∧
      NotAuthoredByEmails literalCompile [str "a@example", str "("]
          (fixedSource [commitBy "alice" "a@example.com"]) () = (.ok [], ()) := by
  refine ⟨⟨_, if_neg (by decide)⟩, rfl, ?_, ?_⟩ <;> decide

/-- The exclusion filter by any author field, over a pattern list whose first
pattern that does not compile is `bad`, and a source that succeeds with
commits that all have an author. -/
theorem notAuthored_of_invalid {σ : Type} (Compile : GoString → Except GoError (GoString → Bool))
    (field : Author → GoString) (good : List GoString) (bad : GoString)
    (rest : List GoString) (err : GoError) (S : Commits σ) (w w1 : σ) (xs : List Commit)
    (hgood : ∀ pattern ∈ good, ∃ re, Compile pattern = .ok re)
    (hbad : Compile bad = .error err)
    (hS : S w = (.ok xs, w1)) (hauthor : ∀ c ∈ xs, c.Author ≠ none) :
    ((∃ c ∈ xs, survives Compile field good c = true) →
        filtered (fun c v => (notAuthoredLoop Compile field c (good ++ bad :: rest), v)) S w
          = (.error (.error err), w1)) ∧
      ((∀ c ∈ xs, survives Compile field good c = false) →
        filtered (fun c v => (notAuthoredLoop Compile field c (good ++ bad :: rest), v)) S w
          = (.ok [], w1)) := by
  have hloop : ∀ c ∈ xs, notAuthoredLoop Compile field c (good ++ bad :: rest)
      = if survives Compile field good c then .error (.error err) else .ok false := by
    intro c hc
    cases ha : c.Author with
    | none => exact absurd ha (hauthor c hc)
    | some author =>
      rw [notAuthoredLoop_of_invalid Compile field c author good bad rest err hgood hbad ha]
      cases hm : anyMatch Compile good (field author) <;> simp [survives, ha, hm]
  constructor
  · intro hex
    simp only [filtered, hS]
    apply filteredLoop_panics
    · intro c hc
      rw [hloop c hc]
      cases survives Compile field good c <;> simp
    · obtain ⟨c, hc, hsv⟩ := hex
      exact ⟨c, hc, by rw [hloop c hc, hsv]; rfl⟩
  · intro hall
    simp only [filtered, hS]
    have hagree : ∀ c ∈ xs, notAuthoredLoop Compile field c (good ++ bad :: rest)
        = .ok ((fun _ => false) c) := by
      intro c hc
      rw [hloop c hc, hall c hc]
      rfl
    rw [filteredLoop_agrees _ _ xs [] w1 hagree]
    simp

/-- C7, amended: for every pattern list whose first pattern that does not
compile is `bad`, and every source that succeeds with commits that all have an
author, the invocation of NotAuthoredByNames (and likewise NotAuthoredByEmails)
panics with the compile error of `bad` when the source returns at least one
commit whose author name (email) none of the patterns before `bad` matches;
when every commit of the source is matched by a pattern before `bad`, and so
also when the source returns no commit, it returns the empty slice without a
panic. -/
theorem NotAuthoredBy_bad_pattern {σ : Type}
    (Compile : GoString → Except GoError (GoString → Bool))
    (good : List GoString) (bad : GoString) (rest : List GoString) (err : GoError)
    (S : Commits σ) (w w1 : σ) (xs : List Commit)
    (hgood : ∀ pattern ∈ good, ∃ re, Compile pattern = .ok re)
    (hbad : Compile bad = .error err)
    (hS : S w = (.ok xs, w1)) (hauthor : ∀ c ∈ xs, c.Author ≠ none) :
    ((∃ c ∈ xs, survives Compile Author.Name good c = true) →
        NotAuthoredByNames Compile (good ++ bad :: rest) S w = (.error (.error err), w1)) ∧
      ((∀ c ∈ xs, survives Compile Author.Name good c = false) →
        NotAuthoredByNames Compile (good ++ bad :: rest) S w = (.ok [], w1)) ∧
      ((∃ c ∈ xs, survives Compile Author.Email good c = true) →
        NotAuthoredByEmails Compile (good ++ bad :: rest) S w = (.error (.error err), w1)) ∧
      ((∀ c ∈ xs, survives Compile Author.Email good c = false) →
        NotAuthoredByEmails Compile (good ++ bad :: rest) S w = (.ok [], w1)) := by
  have hn := notAuthored_of_invalid Compile Author.Name good bad rest err S w w1 xs
    hgood hbad hS hauthor
  have he := notAuthored_of_invalid Compile Author.Email good bad rest err S w w1 xs
    hgood hbad hS hauthor
  exact ⟨hn.1, hn.2, he.1, he.2⟩

/-- Witness of C7, amended: the bad pattern `(` after the pattern `alice`, on
a source whose second commit is not by alice. -/
theorem NotAuthoredBy_bad_pattern_witness :
    NotAuthoredByNames literalCompile ([str "alice"] ++ str "(" :: [str "bob"])
        (fixedSource [commitBy "alice" "a@example.com", commitBy "bob" "b@example.com"]) ()
      = (.error (.error ⟨"error parsing regexp"⟩), ()) :=
  (NotAuthoredBy_bad_pattern literalCompile [str "alice"] (str "(") [str "bob"]
    ⟨"error parsing regexp"⟩
    (fixedSource [commitBy "alice" "a@example.com", commitBy "bob" "b@example.com"]) () ()
    [commitBy "alice" "a@example.com", commitBy "bob" "b@example.com"]
    (by
      intro pattern hp
      rw [List.mem_singleton] at hp
      subst hp
      unfold literalCompile
      exact ⟨_, if_pos (by decide)⟩)
    (if_neg (by decide)) rfl (by decide)).1
    ⟨commitBy "bob" "b@example.com", by decide, by decide⟩

/-! ## Identifiers of a commit -/

/-- C8: for every commit whose Hash has at least 7 bytes, ShortID returns
exactly the first 7 bytes of Hash, a prefix of ID of length 7, and ID returns
Hash unchanged. -/
theorem ShortID_is_the_first_seven_of_Hash (c : Commit) (h : 7 ≤ c.Hash.length) :
    c.ShortID = .ok (c.Hash.take 7) ∧ (c.Hash.take 7).length = 7 ∧
      (c.Hash.take 7) <+: c.ID ∧ c.ID = c.Hash := by
  refine ⟨?_, ?_, ?_, rfl⟩
  · simp [Commit.ShortID, shaLen, h]
  · simp [h]
  · exact List.take_prefix 7 c.Hash

/-- Witness of C8: the hash of the tests of the package. -/
theorem ShortID_is_the_first_seven_of_Hash_witness :
    ({ Hash := str "1234567890", Message := [], Date := 0, NumParents := 0,
       Author := none } : Commit).ShortID = .ok (str "1234567") :=
  (ShortID_is_the_first_seven_of_Hash
    { Hash := str "1234567890", Message := [], Date := 0, NumParents := 0, Author := none }
    (by decide)).1.trans (by decide)

/-- C9, the code at the failing input: for every commit whose Hash has fewer
than 7 bytes, ShortID returns no string, truncated or not, but it does not
fail with an error value either: the slice expression is not guarded by a
length check, and the call ends in the run-time panic slice bounds out of
range, a crash. -/
theorem ShortID_crashes_on_a_short_Hash (c : Commit) (h : c.Hash.length < 7) :
    c.ShortID = .error (.sliceBoundsOutOfRange 7 c.Hash.length) ∧
      (∀ s, c.ShortID ≠ .ok s) ∧ (∀ err, c.ShortID ≠ .error (.error err)) := by
  have hs : c.ShortID = .error (.sliceBoundsOutOfRange 7 c.Hash.length) := by
    simp [Commit.ShortID, shaLen, Nat.not_le.mpr h]
  refine ⟨hs, ?_, ?_⟩
  · intro s hok
    rw [hs] at hok
    cases hok
  · intro err herr
    rw [hs] at herr
    cases herr

/-- Witness of C9: a hash of three bytes. -/
theorem ShortID_crashes_on_a_short_Hash_witness :
    ({ Hash := str "abc", Message := [], Date := 0, NumParents := 0,
       Author := none } : Commit).ShortID = .error (.sliceBoundsOutOfRange 7 3) :=
  (ShortID_crashes_on_a_short_Hash
    { Hash := str "abc", Message := [], Date := 0, NumParents := 0, Author := none }
    (by decide)).1

/-! ## The synthetic source -/

/-- C10: for every stream that is read to its end, the invocation of
FakeCommit returns exactly one commit, with Hash `fakesha`, Message the whole
text read, NumParents 0 and no Author; for the stream holding a subject `subj`,
a blank line and the body `body`, the Subject of that commit is `subj` and its
Body is `body`. -/
theorem FakeCommit_returns_one_commit {σ : Type} (reader : σ → Except GoError GoString × σ)
    (now : σ → Time) (w w1 : σ) (b : GoString) (clock : Time)
    (hr : reader w = (.ok b, w1)) :
    FakeCommit reader now w
        = (.ok [{ Hash := str "fakesha", Message := b, Date := now w1, NumParents := 0,
                  Author := none }], w1) ∧
      ∃ c, FakeCommit StreamWorld.ReadAll StreamWorld.Now
            { unread := str "subj\n\nbody", fault := none, clock := clock }
          = (.ok [c], { unread := [], fault := none, clock := clock }) ∧
        c.Hash = str "fakesha" ∧ c.Message = str "subj\n\nbody" ∧ c.NumParents = 0 ∧
        c.Author = none ∧ c.Subject = .ok (str "subj") ∧ c.Body = str "body" := by
  constructor
  · simp [FakeCommit, hr]
  · refine ⟨{ Hash := str "fakesha", Message := str "subj\n\nbody", Date := clock,
              NumParents := 0, Author := none }, rfl, rfl, rfl, rfl, rfl, ?_, ?_⟩
    · simp only [Commit.Subject]
      decide
    · simp only [Commit.Body]
      decide

/-- Witness of C10: the stream of the test of the package. -/
theorem FakeCommit_returns_one_commit_witness :
    FakeCommit StreamWorld.ReadAll StreamWorld.Now
        { unread := str "test subject\n\ntest body", fault := none, clock := 5 }
      = (.ok [{ Hash := str "fakesha", Message := str "test subject\n\ntest body", Date := 5,
                NumParents := 0, Author := none }],
         { unread := [], fault := none, clock := 5 }) ∧
    ({ Hash := str "fakesha", Message := str "test subject\n\ntest body", Date := 5,
       NumParents := 0, Author := none } : Commit).Subject = .ok (str "test subject") ∧
    ({ Hash := str "fakesha", Message := str "test subject\n\ntest body", Date := 5,
       NumParents := 0, Author := none } : Commit).Body = str "test body" :=
  ⟨(FakeCommit_returns_one_commit StreamWorld.ReadAll StreamWorld.Now
      { unread := str "test subject\n\ntest body", fault := none, clock := 5 }
      { unread := [], fault := none, clock := 5 } (str "test subject\n\ntest body") 0 rfl).1,
    by decide, by decide⟩

/-- Counterexample to C11 as stated: the sentinel hash has 7 bytes, not fewer,
and ShortID on the commit returned for the stream `msg` returns the sentinel
itself instead of failing. -/
theorem FakeCommit_ShortID_counterexample :
    (str "fakesha").length = 7 ∧
      ∃ c w1, FakeCommit StreamWorld.ReadAll StreamWorld.Now
            { unread := str "msg", fault := none, clock := 0 } = (.ok [c], w1) ∧
        c.ShortID = .ok (str "fakesha") :=
  ⟨by decide, _, _, rfl, by decide⟩

/-- C11, amended: the sentinel Hash of the commit produced by FakeCommit has
exactly 7 bytes, so whenever the invocation of FakeCommit returns, it returns
one commit on which ShortID succeeds and returns the whole sentinel
`fakesha`. -/
theorem FakeCommit_ShortID_is_the_sentinel {σ : Type}
    (reader : σ → Except GoError GoString × σ) (now : σ → Time) (w w1 : σ)
    (cs : List Commit) (h : FakeCommit reader now w = (.ok cs, w1)) :
    ∃ c, cs = [c] ∧ c.Hash = str "fakesha" ∧ c.Hash.length = 7 ∧
      c.ShortID = .ok (str "fakesha") := by
  unfold FakeCommit at h
  cases hr : reader w with
  | mk out w2 =>
    cases out with
    | error err => simp [hr] at h
    | ok b =>
      simp only [hr, Prod.mk.injEq, Except.ok.injEq] at h
      have hlen : (str "fakesha").length = 7 := by decide
      refine ⟨_, h.1.symm, rfl, hlen, ?_⟩
      simp only [Commit.ShortID]
      decide

/-- Witness of C11, amended: the stream of the test of the package. -/
theorem FakeCommit_ShortID_is_the_sentinel_witness :
    ∃ c, [({ Hash := str "fakesha", Message := str "test subject\n\ntest body", Date := 5,
             NumParents := 0, Author := none } : Commit)] = [c] ∧
      c.Hash = str "fakesha" ∧ c.Hash.length = 7 ∧ c.ShortID = .ok (str "fakesha") :=
  FakeCommit_ShortID_is_the_sentinel StreamWorld.ReadAll StreamWorld.Now
    { unread := str "test subject\n\ntest body", fault := none, clock := 5 }
    { unread := [], fault := none, clock := 5 } _ rfl

/-- Counterexample to C15 as stated: on the stream `abc` the first invocation
returns a commit with Message `abc`, and the second invocation of the same
source, in the world the first one left, returns a commit with the empty
Message. -/
theorem FakeCommit_invoked_twice_counterexample :
    FakeCommit StreamWorld.ReadAll StreamWorld.Now
        { unread := str "abc", fault := none, clock := 3 }
      = (.ok [{ Hash := str "fakesha", Message := str "abc", Date := 3, NumParents := 0,
                Author := none }], { unread := [], fault := none, clock := 3 }) ∧
    FakeCommit StreamWorld.ReadAll StreamWorld.Now
        { unread := [], fault := none, clock := 3 }
      = (.ok [{ Hash := str "fakesha", Message := str "", Date := 3, NumParents := 0,
                Author := none }], { unread := [], fault := none, clock := 3 }) ∧
    str "abc" ≠ str "" :=
  ⟨rfl, rfl, by decide⟩

/-- C15, amended: the source built by FakeCommit reads its stream again on
every invocation. For every stream that ends without a read error, the first
invocation returns one commit whose Message is the whole text and leaves the
stream consumed; a second invocation of the same source, at any later time,
returns one commit whose Message is empty. -/
theorem FakeCommit_invoked_twice (text : GoString) (t1 t2 : Time) :
    FakeCommit StreamWorld.ReadAll StreamWorld.Now
        { unread := text, fault := none, clock := t1 }
      = (.ok [{ Hash := str "fakesha", Message := text, Date := t1, NumParents := 0,
                Author := none }], { unread := [], fault := none, clock := t1 }) ∧
    FakeCommit StreamWorld.ReadAll StreamWorld.Now
        { unread := [], fault := none, clock := t2 }
      = (.ok [{ Hash := str "fakesha", Message := [], Date := t2, NumParents := 0,
                Author := none }], { unread := [], fault := none, clock := t2 }) :=
  ⟨rfl, rfl⟩

/-- C16, the code at the failing input: for every stream that ends without a
read error and every non-empty pattern list, the invocation of
NotAuthoredByNames, and of NotAuthoredByEmails, around FakeCommit does not
complete: the filter dereferences the nil Author of the synthetic commit and
the invocation ends in the nil pointer panic. -/
theorem NotAuthoredBy_around_FakeCommit_panics
    (Compile : GoString → Except GoError (GoString → Bool)) (pattern : GoString)
    (rest : List GoString) (text : GoString) (t : Time) :
    NotAuthoredByNames Compile (pattern :: rest)
        (FakeCommit StreamWorld.ReadAll StreamWorld.Now)
        { unread := text, fault := none, clock := t }
      = (.error .nilPointerDereference, { unread := [], fault := none, clock := t }) ∧
    NotAuthoredByEmails Compile (pattern :: rest)
        (FakeCommit StreamWorld.ReadAll StreamWorld.Now)
        { unread := text, fault := none, clock := t }
      = (.error .nilPointerDereference, { unread := [], fault := none, clock := t }) := by
  constructor <;>
    simp [NotAuthoredByNames, NotAuthoredByEmails, filtered, FakeCommit, StreamWorld.ReadAll,
      filteredLoop, notAuthoredLoop]

/-! ## Algebra of the filters -/

/-- The parent-count filter over a source that succeeds. -/
theorem WithMaxParents_of_ok {σ : Type} (n : Int) (S : Commits σ) (w w1 : σ)
    (xs : List Commit) (hS : S w = (.ok xs, w1)) :
    WithMaxParents n S w = (.ok (xs.filter (fun c => decide (c.NumParents ≤ n))), w1) := by
  simp [WithMaxParents, filtered, hS, filteredLoop_pure]

/-- The parent-count filter over a source that panics. -/
theorem WithMaxParents_of_error {σ : Type} (n : Int) (S : Commits σ) (w w1 : σ)
    (p : Failure) (hS : S w = (.error p, w1)) :
    WithMaxParents n S w = (.error p, w1) := by
  simp [WithMaxParents, filtered, hS]

/-- Two nested parent-count filters are the filter by the smaller ceiling. -/
theorem WithMaxParents_twice {σ : Type} (m n : Int) (S : Commits σ) (w : σ) :
    WithMaxParents m (WithMaxParents n S) w = WithMaxParents (min m n) S w := by
  cases hS : S w with
  | mk out w1 =>
    cases out with
    | error p =>
      rw [WithMaxParents_of_error m _ w w1 p (WithMaxParents_of_error n S w w1 p hS),
        WithMaxParents_of_error _ S w w1 p hS]
    | ok xs =>
      rw [WithMaxParents_of_ok m _ w w1 _ (WithMaxParents_of_ok n S w w1 xs hS),
        WithMaxParents_of_ok _ S w w1 xs hS, List.filter_filter]
      congr 2
      apply List.filter_congr
      intro c _
      by_cases h1 : c.NumParents ≤ m <;> by_cases h2 : c.NumParents ≤ n <;>
        simp [h1, h2, le_min_iff]

/-- C19: nesting parent-count filters keeps the tighter ceiling: for all
integers m and n and every source S (one that succeeds, and also one that
panics), the invocation of WithMaxParents(m, WithMaxParents(n, S)) equals
that of WithMaxParents(min(m, n), S); in particular the filter is idempotent
and two such filters commute. -/
theorem WithMaxParents_nested_keeps_the_tighter_ceiling {σ : Type} (m n : Int)
    (S : Commits σ) (w : σ) :
    WithMaxParents m (WithMaxParents n S) w = WithMaxParents (min m n) S w ∧
      WithMaxParents n (WithMaxParents n S) w = WithMaxParents n S w ∧
      WithMaxParents m (WithMaxParents n S) w = WithMaxParents n (WithMaxParents m S) w := by
  refine ⟨WithMaxParents_twice m n S w, ?_, ?_⟩
  · rw [WithMaxParents_twice, min_self]
  · rw [WithMaxParents_twice, WithMaxParents_twice, min_comm]

/-- The pattern list `p ++ q` lets through exactly what both `p` and `q` let
through. -/
theorem survives_append (Compile : GoString → Except GoError (GoString → Bool))
    (field : Author → GoString) (p q : List GoString) (c : Commit) :
    survives Compile field (p ++ q) c
      = (survives Compile field p c && survives Compile field q c) := by
  cases ha : c.Author with
  | none => simp [survives, ha]
  | some author => simp [survives, ha, anyMatch, List.any_append, Bool.not_or]

/-- C20: excluding by a concatenated pattern list equals nesting the
exclusions: for all lists p and q of patterns that compile and every source
that succeeds with commits that all have an author, the invocation of
NotAuthoredByEmails(p ++ q, S) equals that of
NotAuthoredByEmails(p, NotAuthoredByEmails(q, S)); and with the empty pattern
list the invocation of NotAuthoredByEmails([], S) equals that of S. -/
theorem NotAuthoredByEmails_of_concatenated_patterns {σ : Type}
    (Compile : GoString → Except GoError (GoString → Bool)) (p q : List GoString)
    (S : Commits σ) (w w1 : σ) (xs : List Commit)
    (hp : ∀ pattern ∈ p, ∃ re, Compile pattern = .ok re)
    (hq : ∀ pattern ∈ q, ∃ re, Compile pattern = .ok re)
    (hS : S w = (.ok xs, w1)) (hauthor : ∀ c ∈ xs, c.Author ≠ none) :
    NotAuthoredByEmails Compile (p ++ q) S w
        = NotAuthoredByEmails Compile p (NotAuthoredByEmails Compile q S) w ∧
      NotAuthoredByEmails Compile [] S w = S w := by
  have hpq : ∀ pattern ∈ p ++ q, ∃ re, Compile pattern = .ok re := by
    intro pattern hmem
    rcases List.mem_append.mp hmem with h | h
    · exact hp pattern h
    · exact hq pattern h
  have hinner : NotAuthoredByEmails Compile q S w
      = (.ok (xs.filter (survives Compile Author.Email q)), w1) :=
    notAuthored_of_valid Compile Author.Email q S w w1 xs hq hS hauthor
  have hauthor1 : ∀ c ∈ xs.filter (survives Compile Author.Email q), c.Author ≠ none :=
    fun c hc => hauthor c (List.mem_filter.mp hc).1
  have houter : NotAuthoredByEmails Compile p (NotAuthoredByEmails Compile q S) w
      = (.ok ((xs.filter (survives Compile Author.Email q)).filter
          (survives Compile Author.Email p)), w1) :=
    notAuthored_of_valid Compile Author.Email p _ w w1 _ hp hinner hauthor1
  have hleft : NotAuthoredByEmails Compile (p ++ q) S w
      = (.ok (xs.filter (survives Compile Author.Email (p ++ q))), w1) :=
    notAuthored_of_valid Compile Author.Email (p ++ q) S w w1 xs hpq hS hauthor
  constructor
  · rw [hleft, houter, List.filter_filter]
    congr 2
    apply List.filter_congr
    intro c _
    exact survives_append Compile Author.Email p q c
  · have hnil : NotAuthoredByEmails Compile [] S w
        = (.ok (xs.filter (survives Compile Author.Email [])), w1) :=
      notAuthored_of_valid Compile Author.Email [] S w w1 xs (by simp) hS hauthor
    rw [hnil, hS]
    congr 2
    apply List.filter_eq_self.mpr
    intro c _
    cases ha : c.Author <;> simp [survives, ha, anyMatch]

/-- Witness of C20: the email patterns `bot` and `alice`, together and nested,
on four commits. -/
theorem NotAuthoredByEmails_of_concatenated_patterns_witness :
    NotAuthoredByEmails literalCompile ([str "bot"] ++ [str "alice"])
        (fixedSource [commitBy "r" "robot@example.com", commitBy "a" "alice@example.com",
          commitBy "c" "carol@example.com", commitBy "d" "dependabot@example.com"]) ()
      = NotAuthoredByEmails literalCompile [str "bot"]
          (NotAuthoredByEmails literalCompile [str "alice"]
            (fixedSource [commitBy "r" "robot@example.com", commitBy "a" "alice@example.com",
              commitBy "c" "carol@example.com", commitBy "d" "dependabot@example.com"])) () ∧
    NotAuthoredByEmails literalCompile ([str "bot"] ++ [str "alice"])
        (fixedSource [commitBy "r" "robot@example.com", commitBy "a" "alice@example.com",
          commitBy "c" "carol@example.com", commitBy "d" "dependabot@example.com"]) ()
      = (.ok [commitBy "c" "carol@example.com"], ()) :=
  ⟨(NotAuthoredByEmails_of_concatenated_patterns literalCompile [str "bot"] [str "alice"]
      (fixedSource [commitBy "r" "robot@example.com", commitBy "a" "alice@example.com",
        commitBy "c" "carol@example.com", commitBy "d" "dependabot@example.com"]) () () _
      (by
        intro pattern hmem
        rw [List.mem_singleton] at hmem
        subst hmem
        unfold literalCompile
        exact ⟨_, if_pos (by decide)⟩)
      (by
        intro pattern hmem
        rw [List.mem_singleton] at hmem
        subst hmem
        unfold literalCompile
        exact ⟨_, if_pos (by decide)⟩)
      rfl (by decide)).1,
    by decide⟩

/-! ## Subject and Body -/

/-- The literal of a line break is the single byte 10. -/
theorem str_line_break : str "\n" = [10] := by decide

/-- The literal of the blank-line separator is the byte 10 twice. -/
theorem str_blank_line : str "\n\n" = [10, 10] := by decide

/-- A one-byte text occurs in a text exactly when the byte is in it. -/
theorem singleton_infix_iff_mem (x : UInt8) (s : GoString) : [x] <:+: s ↔ x ∈ s := by
  induction s with
  | nil => simp
  | cons b t ih =>
    rw [List.infix_cons_iff, ih, List.cons_prefix_cons, List.mem_cons]
    simp

/-- Where `Index` finds nothing, the separator does not occur. -/
theorem Index_none_absent (sep s : GoString) (h : Index s sep = none) : ¬ sep <:+: s := by
  induction s with
  | nil =>
    by_cases hs : sep = []
    · simp [Index, hs] at h
    · simpa using hs
  | cons b t ih =>
    by_cases hp : sep.isPrefixOf (b :: t) = true
    · simp [Index, hp] at h
    · simp only [Index, hp] at h
      have ht : Index t sep = none := by
        cases hi : Index t sep with
        | none => rfl
        | some k => simp [hi] at h
      rw [List.infix_cons_iff]
      rintro (hpre | hin)
      · exact hp (List.isPrefixOf_iff_prefix.mpr hpre)
      · exact ih ht hin

/-- An occurrence found by `Index` splits the text: what stands before it,
the separator, what stands after it. -/
theorem Index_some_eq (sep s : GoString) (m : Nat) (h : Index s sep = some m) :
    s = s.take m ++ (sep ++ s.drop (m + sep.length)) := by
  induction s generalizing m with
  | nil =>
    by_cases hs : sep = []
    · simp [Index, hs] at h
      simp [hs]
    · simp [Index, hs] at h
  | cons b t ih =>
    by_cases hp : sep.isPrefixOf (b :: t) = true
    · simp [Index, hp] at h
      subst h
      have hpre := List.isPrefixOf_iff_prefix.mp hp
      simpa using (List.prefix_iff_eq_append.mp hpre).symm
    · simp only [Index, hp] at h
      cases hi : Index t sep with
      | none => simp [hi] at h
      | some k =>
        simp [hi] at h
        subst h
        have := ih k hi
        simp only [List.take_succ_cons, List.cons_append]
        rw [show k + 1 + sep.length = (k + sep.length) + 1 by omega, List.drop_succ_cons]
        exact congrArg (List.cons b) this

/-- Where the separator does not occur, `Index` finds nothing. -/
theorem Index_none_of_absent (sep s : GoString) (h : ¬ sep <:+: s) : Index s sep = none := by
  cases hi : Index s sep with
  | none => rfl
  | some m =>
    exfalso
    apply h
    rw [Index_some_eq sep s m hi]
    exact List.infix_append' _ _ _

/-- The occurrence found by `Index` is the first: a non-empty separator does
not occur in what stands before it. -/
theorem Index_some_take_absent (sep s : GoString) (hsep : sep ≠ []) (m : Nat)
    (h : Index s sep = some m) : ¬ sep <:+: s.take m := by
  induction s generalizing m with
  | nil => simp [Index, hsep] at h
  | cons b t ih =>
    by_cases hp : sep.isPrefixOf (b :: t) = true
    · simp [Index, hp] at h
      subst h
      simpa using hsep
    · simp only [Index, hp] at h
      cases hi : Index t sep with
      | none => simp [hi] at h
      | some k =>
        simp [hi] at h
        subst h
        rw [List.take_succ_cons, List.infix_cons_iff]
        rintro (hpre | hin)
        · apply hp
          apply List.isPrefixOf_iff_prefix.mpr
          exact hpre.trans ((List.prefix_cons_inj b).mpr (List.take_prefix k t))
        · exact ih k hi hin

/-- After a text free of the first byte of the separator, the separator is
found right at the end of that text. -/
theorem Index_append_of_not_mem (x : UInt8) (sep1 a b : GoString) (hx : x ∉ a) :
    Index (a ++ (x :: sep1 ++ b)) (x :: sep1) = some a.length := by
  induction a with
  | nil =>
    have hp : (x :: sep1).isPrefixOf (x :: sep1 ++ b) = true :=
      List.isPrefixOf_iff_prefix.mpr (List.prefix_append _ _)
    simp only [List.nil_append, List.length_nil]
    simp only [List.cons_append] at hp ⊢
    simp [Index, hp]
  | cons y a ih =>
    have hy : x ≠ y := fun e => hx (e ▸ List.mem_cons_self _ _)
    have hx1 : x ∉ a := fun e => hx (List.mem_cons_of_mem _ e)
    have hp : ¬ (x :: sep1).isPrefixOf (y :: (a ++ (x :: sep1 ++ b))) = true := by
      rw [List.isPrefixOf_iff_prefix, List.cons_prefix_cons]
      exact fun e => hy e.1
    simp only [List.cons_append] at hp ⊢
    simp only [List.cons_append] at ih
    simp [Index, hp, ih hx1]

/-- The first piece of `genSplit`, for a non-empty separator and a bound of at
least the length of the text. -/
theorem genSplit_of_Index (sep : GoString) (hsep : sep ≠ []) (n : Nat) (s : GoString)
    (hn : s.length ≤ n) :
    (Index s sep = none → genSplit sep n s = [s]) ∧
      (∀ m, Index s sep = some m →
        genSplit sep n s = s.take m :: genSplit sep (n - 1) (s.drop (m + sep.length))) := by
  constructor
  · intro h
    cases n <;> simp [genSplit, h]
  · intro m h
    have hk := Index_add_length_le sep s m h
    have hpos : 0 < sep.length := List.length_pos.mpr hsep
    cases n with
    | zero => omega
    | succ k => simp [genSplit, h]

/-- C12: for every commit message, Subject does not fail (also on the empty
message, where it is empty), what it returns contains no line break, and the
Message is the Subject itself when the message has no line break, and
otherwise the Subject followed by a line break and some remainder: Subject is
the text before the first line break. -/
theorem Subject_is_the_text_before_the_first_line_break (c : Commit) :
    ∃ subject, c.Subject = .ok subject ∧ (10 : UInt8) ∉ subject ∧
      ¬ str "\n" <:+: subject ∧
      (¬ str "\n" <:+: c.Message → c.Message = subject) ∧
      (str "\n" <:+: c.Message → ∃ rest, c.Message = subject ++ str "\n" ++ rest) ∧
      (c.Message = [] → subject = []) := by
  have hsep : ([10] : GoString) ≠ [] := by simp
  have hsplit := genSplit_of_Index [10] hsep c.Message.length c.Message (Nat.le_refl _)
  rw [str_line_break]
  cases hi : Index c.Message [10] with
  | none =>
    have hno := Index_none_absent [10] c.Message hi
    refine ⟨c.Message, ?_, ?_, hno, fun _ => rfl, fun h => absurd h hno, fun h => h⟩
    · simp [Commit.Subject, Split, str_line_break, hsplit.1 hi]
    · exact fun h => hno ((singleton_infix_iff_mem 10 _).mpr h)
  | some m =>
    have hno := Index_some_take_absent [10] c.Message hsep m hi
    have heq := Index_some_eq [10] c.Message m hi
    refine ⟨c.Message.take m, ?_, ?_, hno, ?_, ?_, ?_⟩
    · simp [Commit.Subject, Split, str_line_break, hsplit.2 m hi]
    · exact fun h => hno ((singleton_infix_iff_mem 10 _).mpr h)
    · intro h
      exact absurd (Index_none_of_absent [10] c.Message h) (by simp [hi])
    · intro _
      exact ⟨c.Message.drop (m + ([10] : GoString).length), by
        rw [List.append_assoc]
        exact heq⟩
    · intro h
      simp [h]

/-- C13: round trip of a message: for every subject without a line break and
every body without a blank-line separator, the commit whose Message is the
subject, a blank-line separator and the body has that subject as Subject and
that body as Body, so Subject, separator and Body together give back the
Message. -/
theorem Subject_and_Body_round_trip (c : Commit) (subject body : GoString)
    (hs : ¬ str "\n" <:+: subject) (hb : ¬ str "\n\n" <:+: body)
    (hm : c.Message = subject ++ str "\n\n" ++ body) :
    c.Subject = .ok subject ∧ c.Body = body ∧
      subject ++ str "\n\n" ++ c.Body = c.Message := by
  rw [str_line_break] at hs
  rw [str_blank_line] at hb hm
  have hx : (10 : UInt8) ∉ subject := fun h => hs ((singleton_infix_iff_mem 10 _).mpr h)
  have hm1 : c.Message = subject ++ (10 :: [] ++ (10 :: body)) := by
    rw [hm]; simp
  have hm2 : c.Message = subject ++ (10 :: [10] ++ body) := by
    rw [hm]; simp
  have hi1 : Index c.Message [10] = some subject.length := by
    rw [hm1]; exact Index_append_of_not_mem 10 [] subject (10 :: body) hx
  have hi2 : Index c.Message [10, 10] = some subject.length := by
    rw [hm2]; exact Index_append_of_not_mem 10 [10] subject body hx
  have htake : c.Message.take subject.length = subject := by
    rw [hm, List.append_assoc, List.take_left]
  have hdrop : c.Message.drop (subject.length + ([10, 10] : GoString).length) = body := by
    rw [hm, List.append_assoc]
    simp
  have hsplit1 := (genSplit_of_Index [10] (by simp) c.Message.length c.Message
    (Nat.le_refl _)).2 _ hi1
  have hsplit2 := (genSplit_of_Index [10, 10] (by simp) c.Message.length c.Message
    (Nat.le_refl _)).2 _ hi2
  have hbody : genSplit [10, 10] (c.Message.length - 1) body = [body] := by
    have hnone := Index_none_of_absent [10, 10] body hb
    cases c.Message.length - 1 <;> simp [genSplit, hnone]
  have hB : c.Body = body := by
    simp only [Commit.Body, Split, str_blank_line, hsplit2, hdrop, hbody, Join]
  refine ⟨?_, hB, ?_⟩
  · simp only [Commit.Subject, Split, str_line_break, hsplit1, htake]
  · rw [hB, str_blank_line, hm]

/-- Witness of C13: the message of the tests of the package. -/
theorem Subject_and_Body_round_trip_witness :
    ({ Hash := [], Message := str "This is a commit subject\n\nThis is a commit body",
       Date := 0, NumParents := 0, Author := none } : Commit).Subject
      = .ok (str "This is a commit subject") ∧
    ({ Hash := [], Message := str "This is a commit subject\n\nThis is a commit body",
       Date := 0, NumParents := 0, Author := none } : Commit).Body
      = str "This is a commit body" :=
  have h := Subject_and_Body_round_trip
    { Hash := [], Message := str "This is a commit subject\n\nThis is a commit body",
      Date := 0, NumParents := 0, Author := none }
    (str "This is a commit subject") (str "This is a commit body")
    (by decide) (by decide) (by decide)
  ⟨h.1, h.2.1⟩

/-- Passing over `k` bytes is dropping them. -/
theorem cutAtEvery_skip (sep : GoString) (k : Nat) (s : GoString) :
    cutAtEvery sep k s = cutAtEvery sep 0 (s.drop k) := by
  induction k generalizing s with
  | zero => simp
  | succ k ih =>
    cases s with
    | nil => simp [cutAtEvery]
    | cons b t => simp [cutAtEvery, ih t]

/-- The loop of `genSplit`, with a bound of at least the length of the text,
gives the pieces of the text cut at every occurrence of a non-empty separator,
left to right. -/
theorem genSplit_eq_cutAtEvery (sep : GoString) (hsep : sep ≠ []) (n : Nat) (s : GoString)
    (hn : s.length ≤ n) : genSplit sep n s = cutAtEvery sep 0 s := by
  have hpos : 0 < sep.length := List.length_pos.mpr hsep
  induction n generalizing s with
  | zero =>
    have hs : s = [] := List.length_eq_zero.mp (Nat.le_zero.mp hn)
    subst hs
    simp [genSplit, cutAtEvery]
  | succ n ih =>
    cases s with
    | nil => simp [genSplit, Index, hsep, cutAtEvery]
    | cons b t =>
      have ht : t.length ≤ n := by
        simp only [List.length_cons] at hn
        omega
      by_cases hp : sep.isPrefixOf (b :: t) = true
      · have hi : Index (b :: t) sep = some 0 := by simp [Index, hp]
        have hd : (b :: t).drop (0 + sep.length) = t.drop (sep.length - 1) := by
          rw [show 0 + sep.length = (sep.length - 1) + 1 by omega, List.drop_succ_cons]
        have hlen : (t.drop (sep.length - 1)).length ≤ n := by
          simp only [List.length_drop]
          omega
        simp only [genSplit, hi, hd, List.take_zero, cutAtEvery, hp, if_true]
        rw [cutAtEvery_skip sep (sep.length - 1) t, ih _ hlen]
      · cases hi : Index t sep with
        | none =>
          have hi1 : Index (b :: t) sep = none := by simp [Index, hp, hi]
          have hgt := (genSplit_of_Index sep hsep n t ht).1 hi
          have hc : cutAtEvery sep 0 t = [t] := by rw [← ih t ht, hgt]
          simp [genSplit, hi1, cutAtEvery, hp, hc]
        | some k =>
          have hi1 : Index (b :: t) sep = some (k + 1) := by simp [Index, hp, hi]
          have hgt := (genSplit_of_Index sep hsep n t ht).2 k hi
          have hk := Index_add_length_le sep t k hi
          have hc : cutAtEvery sep 0 t
              = t.take k :: genSplit sep (n - 1) (t.drop (k + sep.length)) := by
            rw [← ih t ht, hgt]
          have hd : (b :: t).drop (k + 1 + sep.length) = t.drop (k + sep.length) := by
            rw [show k + 1 + sep.length = (k + sep.length) + 1 by omega, List.drop_succ_cons]
          have hl1 : (t.drop (k + sep.length)).length ≤ n := by
            simp only [List.length_drop]
            omega
          have hl2 : (t.drop (k + sep.length)).length ≤ n - 1 := by
            simp only [List.length_drop]
            omega
          simp only [genSplit, hi1, hd, List.take_succ_cons, cutAtEvery, hp, hc]
          rw [genSplit_bound_irrelevant sep hsep n (n - 1) _ hl1 hl2]
          simp

/-- Joining with the empty separator is concatenating. -/
theorem Join_empty (parts : List GoString) : Join parts [] = parts.flatten := by
  induction parts with
  | nil => rfl
  | cons a t ih =>
    cases t with
    | nil => simp [Join]
    | cons b r => simp [Join, ih]

/-- The method `Body` concatenates the parts after the first. -/
theorem Body_eq_flatten_tail (c : Commit) :
    c.Body = ((Split c.Message (str "\n\n")).tail).flatten := by
  have he : str "" = [] := by decide
  unfold Commit.Body
  cases hsp : Split c.Message (str "\n\n") with
  | nil => simp [he]
  | cons a t =>
    cases t with
    | nil => simp [he]
    | cons b r => simp [he, Join_empty]

/-- C17: for every commit message, Body is the empty string when the message
contains no blank-line separator, and otherwise is the concatenation, with
nothing between them, of all the pieces after the first obtained by cutting
the message at every blank-line separator, left to right and without overlap;
the message with subject `s` and the paragraphs `p1` and `p2` has the Body
`p1p2`. -/
theorem Body_is_the_pieces_after_the_first_joined (c : Commit) :
    (¬ str "\n\n" <:+: c.Message → c.Body = str "") ∧
      (str "\n\n" <:+: c.Message →
        c.Body = ((cutAtEvery (str "\n\n") 0 c.Message).tail).flatten) ∧
      Split c.Message (str "\n\n") = cutAtEvery (str "\n\n") 0 c.Message ∧
      ({ Hash := [], Message := str "s\n\np1\n\np2", Date := 0, NumParents := 0,
         Author := none } : Commit).Body = str "p1p2" := by
  have hsep : str "\n\n" ≠ [] := by decide
  have hcut : Split c.Message (str "\n\n") = cutAtEvery (str "\n\n") 0 c.Message :=
    genSplit_eq_cutAtEvery (str "\n\n") hsep c.Message.length c.Message (Nat.le_refl _)
  refine ⟨?_, ?_, hcut, by decide⟩
  · intro hno
    have hnone := Index_none_of_absent _ _ hno
    have hone := (genSplit_of_Index (str "\n\n") hsep c.Message.length c.Message
      (Nat.le_refl _)).1 hnone
    have he : str "" = [] := by decide
    rw [Body_eq_flatten_tail, Split, hone, he]
    rfl
  · intro _
    rw [Body_eq_flatten_tail, hcut]

/-- What stands before the first blank-line separator of a text can be put in
front of any text free of the separator without bringing two line breaks
together: it contains no separator and, being followed by one, does not end in
a line break. -/
theorem take_Index_append_no_blank_line (s : GoString) (m : Nat)
    (h : Index s [10, 10] = some m) (b : GoString) (hb : ¬ [10, 10] <:+: b) :
    ¬ [10, 10] <:+: s.take m ++ b := by
  induction s generalizing m with
  | nil => simp [Index] at h
  | cons x t ih =>
    by_cases hp : ([10, 10] : GoString).isPrefixOf (x :: t) = true
    · simp [Index, hp] at h
      subst h
      simpa using hb
    · simp only [Index, hp] at h
      cases hi : Index t [10, 10] with
      | none => simp [hi] at h
      | some k =>
        simp [hi] at h
        subst h
        rw [List.take_succ_cons, List.cons_append, List.infix_cons_iff]
        rintro (hpre | hin)
        · rw [List.cons_prefix_cons] at hpre
          obtain ⟨hx, hrest⟩ := hpre
          have heq := Index_some_eq [10, 10] t k hi
          have hhead : ∃ r, t = 10 :: r := by
            cases hk : t.take k with
            | nil =>
              rw [hk] at heq
              exact ⟨10 :: t.drop (k + ([10, 10] : GoString).length), by simpa using heq⟩
            | cons y r =>
              rw [hk, List.cons_append, List.cons_prefix_cons] at hrest
              rw [hk, ← hrest.1] at heq
              exact ⟨r ++ ([10, 10] ++ t.drop (k + ([10, 10] : GoString).length)), by
                simpa using heq⟩
          obtain ⟨r, hr⟩ := hhead
          apply hp
          apply List.isPrefixOf_iff_prefix.mpr
          rw [hr, ← hx]
          exact ⟨r, rfl⟩
        · exact ih k hi hin

/-- The pieces of a text cut at the blank-line separators, put together with
nothing between them, contain no blank-line separator. -/
theorem flatten_genSplit_no_blank_line (n : Nat) (s : GoString) (hn : s.length ≤ n) :
    ¬ [10, 10] <:+: (genSplit [10, 10] n s).flatten := by
  induction n generalizing s with
  | zero =>
    have hs : s = [] := List.length_eq_zero.mp (Nat.le_zero.mp hn)
    subst hs
    simp [genSplit]
  | succ n ih =>
    cases hi : Index s [10, 10] with
    | none =>
      simpa [genSplit, hi] using Index_none_absent [10, 10] s hi
    | some m =>
      have hk := Index_add_length_le [10, 10] s m hi
      have hlen : (s.drop (m + ([10, 10] : GoString).length)).length ≤ n := by
        simp only [List.length_drop, List.length_cons, List.length_nil] at hk ⊢
        omega
      simp only [genSplit, hi, List.flatten_cons]
      exact take_Index_append_no_blank_line s m hi _ (ih _ hlen)

/-- C18: for every commit message, the string returned by Body contains no
blank-line separator: taking away the separators at which the message is cut
never brings two line breaks next to each other. -/
theorem Body_contains_no_blank_line (c : Commit) :
    ¬ str "\n\n" <:+: c.Body ∧ Index c.Body (str "\n\n") = none := by
  have hno : ¬ str "\n\n" <:+: c.Body := by
    rw [Body_eq_flatten_tail, Split, str_blank_line]
    cases hi : Index c.Message [10, 10] with
    | none =>
      have hone := (genSplit_of_Index [10, 10] (by simp) c.Message.length c.Message
        (Nat.le_refl _)).1 hi
      rw [hone]
      simp
    | some m =>
      have hcons := (genSplit_of_Index [10, 10] (by simp) c.Message.length c.Message
        (Nat.le_refl _)).2 m hi
      have hk := Index_add_length_le [10, 10] c.Message m hi
      rw [hcons, List.tail_cons]
      apply flatten_genSplit_no_blank_line
      simp only [List.length_drop, List.length_cons, List.length_nil] at hk ⊢
      omega
  exact ⟨hno, Index_none_of_absent _ _ hno⟩

/-! ## The base source: results -/

/-- The traversal with the callback of `In`, when the traversal itself does not
fail, appends one commit per record, in order. -/
theorem forEachLoop_In (records : List ObjectCommit) (acc : List Commit) :
    forEachLoop
        (fun c commits =>
          (none, commits ++ [{ Hash := c.Hash, Message := c.Message, Date := c.Author.When,
                               NumParents := (c.ParentHashes.length : Int),
                               Author := some { Name := c.Author.Name,
                                                Email := c.Author.Email } }]))
        none records acc
      = (none, acc ++ records.map (fun c =>
          { Hash := c.Hash, Message := c.Message, Date := c.Author.When,
            NumParents := (c.ParentHashes.length : Int),
            Author := some { Name := c.Author.Name, Email := c.Author.Email } })) := by
  induction records generalizing acc with
  | nil => simp [forEachLoop]
  | cons r rest ih => simp [forEachLoop, ih]

/-- C14: for every backend whose open, head and log steps succeed and whose
traversal ends without an error, the invocation of In returns exactly one
Commit per record of the log traversal from the head, in the order of the
traversal, each with the Hash, the Message, the author time as Date and the
author Name and Email of its record, and with NumParents the number of parent
hashes of the record. -/
theorem In_returns_one_commit_per_record {σ : Type}
    (repository : σ → Except GoError (Repository σ) × σ) (w w1 w2 w3 : σ)
    (r : Repository σ) (ref : Reference) (iter : CommitIter)
    (hopen : repository w = (.ok r, w1)) (hhead : r.Head w1 = (.ok ref, w2))
    (hlog : r.Log ref.Hash w2 = (.ok iter, w3)) (hiter : iter.fault = none) :
    ∃ cs, In repository w = (.ok cs, w3) ∧ cs.length = iter.records.length ∧
      cs = iter.records.map (fun c =>
        { Hash := c.Hash, Message := c.Message, Date := c.Author.When,
          NumParents := (c.ParentHashes.length : Int),
          Author := some { Name := c.Author.Name, Email := c.Author.Email } }) := by
  refine ⟨_, ?_, ?_, rfl⟩
  · simp [In, hopen, hhead, hlog, hiter, forEachLoop_In]
  · simp

/-- Witness of C14: a repository of three commits, the last a merge, listed
from the most recent. -/
theorem In_returns_one_commit_per_record_witness :
    In (fixedRepository (str "c3")
        [recordOf "c3" "subject3\n\nbody3" 30 ["c2", "c1"],
         recordOf "c2" "subject2\n\nbody2" 20 ["c1"],
         recordOf "c1" "subject1\n\nbody1" 10 []]) ()
      = (.ok [{ Hash := str "c3", Message := str "subject3\n\nbody3", Date := 30,
                NumParents := 2,
                Author := some { Name := str "John Doe",
                                 Email := str "john.doe@example.com" } },
              { Hash := str "c2", Message := str "subject2\n\nbody2", Date := 20,
                NumParents := 1,
                Author := some { Name := str "John Doe",
                                 Email := str "john.doe@example.com" } },
              { Hash := str "c1", Message := str "subject1\n\nbody1", Date := 10,
                NumParents := 0,
                Author := some { Name := str "John Doe",
                                 Email := str "john.doe@example.com" } }], ()) := by
  obtain ⟨cs, h1, _, h3⟩ := In_returns_one_commit_per_record
    (fixedRepository (str "c3")
      [recordOf "c3" "subject3\n\nbody3" 30 ["c2", "c1"],
       recordOf "c2" "subject2\n\nbody2" 20 ["c1"],
       recordOf "c1" "subject1\n\nbody1" 10 []]) () () () ()
    { Head := fun v => (.ok { Hash := str "c3" }, v),
      Log := fun _ v => (.ok { records :=
        [recordOf "c3" "subject3\n\nbody3" 30 ["c2", "c1"],
         recordOf "c2" "subject2\n\nbody2" 20 ["c1"],
         recordOf "c1" "subject1\n\nbody1" 10 []], fault := none }, v) }
    { Hash := str "c3" }
    { records := [recordOf "c3" "subject3\n\nbody3" 30 ["c2", "c1"],
        recordOf "c2" "subject2\n\nbody2" 20 ["c1"],
        recordOf "c1" "subject1\n\nbody1" 10 []], fault := none }
    rfl rfl rfl rfl
  rw [h1, h3]
  decide

end GoCommitlint
